import Mathlib

/-!
Verification of the balance repository (Go + Postgres ledger/checkpoint bank).

The repository contains two near-duplicate implementations of the same
logic:

* a legacy single-counter variant (main.go, first copy): the accounts table
  stores one watermark column transaction_num per user;
* a dual-counter variant (the unnamed source file): the accounts table
  stores separate transaction_num_send and transaction_num_recv watermarks.

Below, names suffixed 1 embed the single-counter variant and names
suffixed 2 embed the dual-counter variant.  The transactions table is an
append-only ledger whose transaction_num column is a bigserial, so the
n-th inserted row carries sequence number n; we embed it as a list with
sequence numbers assigned at append time.  SQL aggregates (SUM, MAX,
COALESCE, and the row-deduplicating UNION) are embedded with explicit
Option values standing for SQL NULL.
-/

/-- One row of the transactions table: `(transaction_num, user_from,
user_to, amount)`.  `user_from`/`user_to` are nullable columns. -/
structure Entry where
  seq : Int
  userFrom : Option Int
  userTo : Option Int
  amount : Int
  deriving DecidableEq, Repr

/-- Lookup in an association list keyed by user id (the `SELECT ... WHERE
user_id = $1` single-row read). -/
def lookupAcc {β : Type} (u : Int) : List (Int × β) → Option β
  | [] => none
  | (v, c) :: t => if v = u then some c else lookupAcc u t

/-- `INSERT ... ON CONFLICT (user_id) DO UPDATE`: replace the row for `u`
if present, else append a fresh row. -/
def upsert {β : Type} (u : Int) (c : β) : List (Int × β) → List (Int × β)
  | [] => [(u, c)]
  | (v, d) :: t => if v = u then (u, c) :: t else (v, d) :: upsert u c t

/-- NULL-skipping addition used by SQL `SUM`. -/
def sqlAdd : Option Int → Option Int → Option Int
  | none, a => a
  | some v, none => some v
  | some v, some a => some (v + a)

/-- NULL-skipping maximum used by SQL `MAX`. -/
def sqlJoin : Option Int → Option Int → Option Int
  | none, a => a
  | some v, none => some v
  | some v, some a => some (max v a)

/-- SQL `SUM` over a column of nullable values: NULLs are skipped, and the
result is NULL iff no non-NULL value exists. -/
def sqlSum : List (Option Int) → Option Int
  | [] => none
  | x :: t => sqlAdd x (sqlSum t)

/-- SQL `MAX` over a column of nullable values. -/
def sqlMax : List (Option Int) → Option Int
  | [] => none
  | x :: t => sqlJoin x (sqlMax t)

/-- SQL `SUM(amount)` over a set of transactions rows. -/
def sqlSumAmt : List Entry → Option Int
  | [] => none
  | e :: t =>
    match sqlSumAmt t with
    | none => some e.amount
    | some s => some (e.amount + s)

/-- SQL `MAX(transaction_num)` over a set of transactions rows. -/
def sqlMaxSeq : List Entry → Option Int
  | [] => none
  | e :: t =>
    match sqlMaxSeq t with
    | none => some e.seq
    | some m => some (max e.seq m)

/-- `WHERE user_to = u AND transaction_num > w` (the credit-side scan). -/
def credAbove (u w : Int) : List Entry → List Entry
  | [] => []
  | e :: t => if e.userTo = some u ∧ w < e.seq then e :: credAbove u w t else credAbove u w t

/-- `WHERE user_from = u AND transaction_num > w` (the debit-side scan). -/
def debAbove (u w : Int) : List Entry → List Entry
  | [] => []
  | e :: t => if e.userFrom = some u ∧ w < e.seq then e :: debAbove u w t else debAbove u w t

/-- Plain integer sum of the amounts of a list of entries. -/
def sumAmts : List Entry → Int
  | [] => 0
  | e :: t => e.amount + sumAmts t

/-- Sum of amounts credited to `u` by entries with sequence at most `M`. -/
def credUpTo (u M : Int) : List Entry → Int
  | [] => 0
  | e :: t => (if e.userTo = some u ∧ e.seq ≤ M then e.amount else 0) + credUpTo u M t

/-- Sum of amounts debited from `u` by entries with sequence at most `M`. -/
def debUpTo (u M : Int) : List Entry → Int
  | [] => 0
  | e :: t => (if e.userFrom = some u ∧ e.seq ≤ M then e.amount else 0) + debUpTo u M t

/-- Total credits to `u` over the whole ledger. -/
def totalCred (u : Int) : List Entry → Int
  | [] => 0
  | e :: t => (if e.userTo = some u then e.amount else 0) + totalCred u t

/-- Total debits from `u` over the whole ledger. -/
def totalDeb (u : Int) : List Entry → Int
  | [] => 0
  | e :: t => (if e.userFrom = some u then e.amount else 0) + totalDeb u t

/-- The true ledger balance of user `u`: credits minus debits. -/
def balOf (l : List Entry) (u : Int) : Int := totalCred u l - totalDeb u l

/-- Sum of the amounts of all credit-only entries (deposits). -/
def depositTotal : List Entry → Int
  | [] => 0
  | e :: t => (if e.userFrom = none then e.amount else 0) + depositTotal t

/-- Sum of the amounts of all debit-only entries (withdrawals). -/
def withdrawalTotal : List Entry → Int
  | [] => 0
  | e :: t => (if e.userTo = none then e.amount else 0) + withdrawalTotal t

/-- `max` of a watermark and an optional newly observed maximum sequence
(absent when the scan found no rows). -/
def omax (w : Int) : Option Int → Int
  | none => w
  | some m => max w m

/-! ## Dual-counter variant (the unnamed source file) -/

/-- One row of the dual-counter accounts table:
`(transaction_num_send, transaction_num_recv, sum)`. -/
structure Account2 where
  tnSend : Int
  tnRecv : Int
  sum : Int
  deriving DecidableEq, Repr

/-- Database state for the dual-counter variant. -/
structure State2 where
  ledger : List Entry
  accounts : List (Int × Account2)
  deriving DecidableEq, Repr

/-- Result triple of the dual-counter getBalance:
`(balance, transactionNumSend, transactionNumRecv)`. -/
structure GB2 where
  bal : Int
  tnSend : Int
  tnRecv : Int
  deriving DecidableEq, Repr

/-- getBalance of the dual-counter variant.  Reads the accounts row (a
missing row scans as the zero struct), then runs the UNION query: the
credit subquery returns the single row `(SUM(amount), $2, MAX(seq))` over
entries to `u` with sequence above the recv watermark; the debit subquery
returns `(-SUM(amount), MAX(seq), $3)` over entries from `u` with
sequence above the send watermark; UNION deduplicates equal rows; the
outer query takes `COALESCE(SUM(s),0)`, `COALESCE(MAX(tn_recv),0)`,
`COALESCE(MAX(tn_send),0)`. -/
def getBalance2Core (l : List Entry) (cp : Account2) (u : Int) : GB2 :=
  let cr := credAbove u cp.tnRecv l
  let dr := debAbove u cp.tnSend l
  let creditRow : Option Int × Option Int × Option Int :=
    (sqlSumAmt cr, some cp.tnSend, sqlMaxSeq cr)
  let debitRow : Option Int × Option Int × Option Int :=
    ((sqlSumAmt dr).map (fun x => -x), sqlMaxSeq dr, some cp.tnRecv)
  let rows := if creditRow = debitRow then [creditRow] else [creditRow, debitRow]
  { bal := cp.sum + (sqlSum (rows.map (fun r => r.1))).getD 0
    tnSend := (sqlMax (rows.map (fun r => r.2.1))).getD 0
    tnRecv := (sqlMax (rows.map (fun r => r.2.2))).getD 0 }

def getBalance2 (l : List Entry) (accs : List (Int × Account2)) (u : Int) : GB2 :=
  getBalance2Core l ((lookupAcc u accs).getD ⟨0, 0, 0⟩) u

/-- updateBalance of the dual-counter variant: upsert the accounts row. -/
def updateBalance2 (u bal tnSend tnRecv : Int) (accs : List (Int × Account2)) :
    List (Int × Account2) :=
  upsert u ⟨tnSend, tnRecv, bal⟩ accs

/-- add (deposit): append a credit-only transactions row; the bigserial
assigns sequence number `length + 1`. -/
def add2 (s : State2) (u amt : Int) : State2 :=
  { s with ledger := s.ledger ++ [⟨(s.ledger.length : Int) + 1, none, some u, amt⟩] }

/-- withdraw: reconcile `u`, upsert the refreshed checkpoint, commit it
even when the balance is insufficient; append a debit-only row only when
`balance ≥ amount`.  Returns whether the debit happened. -/
def withdraw2 (s : State2) (u amt : Int) : Bool × State2 :=
  let g := getBalance2 s.ledger s.accounts u
  let s1 : State2 := { s with accounts := updateBalance2 u g.bal g.tnSend g.tnRecv s.accounts }
  if g.bal < amt then (false, s1)
  else (true, { s1 with ledger := s1.ledger ++ [⟨(s1.ledger.length : Int) + 1, some u, none, amt⟩] })

/-- transfer: reconcile the source account only, upsert its checkpoint,
and append a two-sided row when the balance suffices. -/
def transfer2 (s : State2) (ufrom uto amt : Int) : Bool × State2 :=
  let g := getBalance2 s.ledger s.accounts ufrom
  let s1 : State2 := { s with accounts := updateBalance2 ufrom g.bal g.tnSend g.tnRecv s.accounts }
  if g.bal < amt then (false, s1)
  else (true, { s1 with ledger := s1.ledger ++ [⟨(s1.ledger.length : Int) + 1, some ufrom, some uto, amt⟩] })

/-- balance (GetBalance): reconcile, upsert the refreshed checkpoint and
return the balance. -/
def balanceOp2 (s : State2) (u : Int) : Int × State2 :=
  let g := getBalance2 s.ledger s.accounts u
  (g.bal, { s with accounts := updateBalance2 u g.bal g.tnSend g.tnRecv s.accounts })

/-- The four operations of the in-process contract. -/
inductive Op where
  | deposit (u amt : Int)
  | withdraw (u amt : Int)
  | transfer (ufrom uto amt : Int)
  | getbal (u : Int)
  deriving DecidableEq, Repr

/-- One operation applied to a dual-counter state. -/
def step2 (o : Op) (s : State2) : State2 :=
  match o with
  | .deposit u amt => add2 s u amt
  | .withdraw u amt => (withdraw2 s u amt).2
  | .transfer a b amt => (transfer2 s a b amt).2
  | .getbal u => (balanceOp2 s u).2

/-- The empty database. -/
def init2 : State2 := ⟨[], []⟩

/-- States reachable from the empty database by the four operations. -/
inductive Reachable2 : State2 → Prop where
  | init : Reachable2 init2
  | step {s : State2} (o : Op) : Reachable2 s → Reachable2 (step2 o s)

/-! ## Single-counter variant (main.go, legacy copy) -/

/-- One row of the single-counter accounts table: `(transaction_num, sum)`. -/
structure Account1 where
  tn : Int
  sum : Int
  deriving DecidableEq, Repr

/-- Database state for the single-counter variant. -/
structure State1 where
  ledger : List Entry
  accounts : List (Int × Account1)
  deriving DecidableEq, Repr

/-- Result pair of the single-counter getBalance: `(balance, transactionNum)`. -/
structure GB1 where
  bal : Int
  tn : Int
  deriving DecidableEq, Repr

/-- getBalance of the single-counter variant: both UNION subqueries filter
on the same watermark `$2`; the outer query takes `COALESCE(SUM(s),0)` and
`COALESCE(MAX(tn), $2)`. -/
def getBalance1Core (l : List Entry) (cp : Account1) (u : Int) : GB1 :=
  let cr := credAbove u cp.tn l
  let dr := debAbove u cp.tn l
  let creditRow : Option Int × Option Int := (sqlSumAmt cr, sqlMaxSeq cr)
  let debitRow : Option Int × Option Int := ((sqlSumAmt dr).map (fun x => -x), sqlMaxSeq dr)
  let rows := if creditRow = debitRow then [creditRow] else [creditRow, debitRow]
  { bal := cp.sum + (sqlSum (rows.map (fun r => r.1))).getD 0
    tn := (sqlMax (rows.map (fun r => r.2))).getD cp.tn }

def getBalance1 (l : List Entry) (accs : List (Int × Account1)) (u : Int) : GB1 :=
  getBalance1Core l ((lookupAcc u accs).getD ⟨0, 0⟩) u

/-- updateBalance of the single-counter variant. -/
def updateBalance1 (u bal tn : Int) (accs : List (Int × Account1)) :
    List (Int × Account1) :=
  upsert u ⟨tn, bal⟩ accs

/-- add (deposit), single-counter variant. -/
def add1 (s : State1) (u amt : Int) : State1 :=
  { s with ledger := s.ledger ++ [⟨(s.ledger.length : Int) + 1, none, some u, amt⟩] }

/-- withdraw, single-counter variant. -/
def withdraw1 (s : State1) (u amt : Int) : Bool × State1 :=
  let g := getBalance1 s.ledger s.accounts u
  let s1 : State1 := { s with accounts := updateBalance1 u g.bal g.tn s.accounts }
  if g.bal < amt then (false, s1)
  else (true, { s1 with ledger := s1.ledger ++ [⟨(s1.ledger.length : Int) + 1, some u, none, amt⟩] })

/-- transfer, single-counter variant. -/
def transfer1 (s : State1) (ufrom uto amt : Int) : Bool × State1 :=
  let g := getBalance1 s.ledger s.accounts ufrom
  let s1 : State1 := { s with accounts := updateBalance1 ufrom g.bal g.tn s.accounts }
  if g.bal < amt then (false, s1)
  else (true, { s1 with ledger := s1.ledger ++ [⟨(s1.ledger.length : Int) + 1, some ufrom, some uto, amt⟩] })

/-- balance (GetBalance), single-counter variant. -/
def balanceOp1 (s : State1) (u : Int) : Int × State1 :=
  let g := getBalance1 s.ledger s.accounts u
  (g.bal, { s with accounts := updateBalance1 u g.bal g.tn s.accounts })

/-- One operation applied to a single-counter state. -/
def step1 (o : Op) (s : State1) : State1 :=
  match o with
  | .deposit u amt => add1 s u amt
  | .withdraw u amt => (withdraw1 s u amt).2
  | .transfer a b amt => (transfer1 s a b amt).2
  | .getbal u => (balanceOp1 s u).2

/-- The empty single-counter database. -/
def init1 : State1 := ⟨[], []⟩

/-- Run a trace of operations left to right. -/
def run1 (s : State1) : List Op → State1
  | [] => s
  | o :: t => run1 (step1 o s) t

/-- The operation contract requires a positive amount on every mutating
call (`amount > 0`); GetBalance has no amount. -/
def opPos : Op → Prop
  | .deposit _ amt => 0 < amt
  | .withdraw _ amt => 0 < amt
  | .transfer _ _ amt => 0 < amt
  | .getbal _ => True

instance opPos.decidable : (o : Op) → Decidable (opPos o)
  | .deposit _ amt => inferInstanceAs (Decidable (0 < amt))
  | .withdraw _ amt => inferInstanceAs (Decidable (0 < amt))
  | .transfer _ _ amt => inferInstanceAs (Decidable (0 < amt))
  | .getbal _ => .isTrue trivial

/-- States reachable from the empty database by operations satisfying the
contract's amount precondition. -/
inductive Reachable1 : State1 → Prop where
  | init : Reachable1 init1
  | step {s : State1} (o : Op) (ho : opPos o) : Reachable1 s → Reachable1 (step1 o s)

/-! ## Failure-injected single-counter operations

Every operation runs inside one database transaction; a step that fails
makes the operation return an error, and the transaction-local writes
persist only if `Commit` is reached and succeeds.  The flags below choose
which step fails when attempted.  The code paths are modelled one to one:
in add, a failed INSERT rolls back explicitly; in withdraw/transfer a
failed getBalance/updateBalance/INSERT returns without committing (the
open transaction's writes never persist); the insufficient-funds branch
commits the refreshed checkpoint and ignores a commit error. -/

structure Failures where
  failBegin : Bool
  failGet : Bool
  failUpdate : Bool
  failInsert : Bool
  failCommit : Bool
  deriving DecidableEq, Repr

/-- Operation outcome: success, insufficient-funds rejection, or a
storage failure surfaced to the caller. -/
inductive WRes where
  | ok
  | insufficient
  | storageErr
  deriving DecidableEq, Repr

/-- add with injected failures. -/
def add1F (f : Failures) (s : State1) (u amt : Int) : WRes × State1 :=
  if f.failBegin then (.storageErr, s)
  else if f.failInsert then (.storageErr, s)
  else if f.failCommit then (.storageErr, s)
  else (.ok, add1 s u amt)

/-- withdraw with injected failures. -/
def withdraw1F (f : Failures) (s : State1) (u amt : Int) : WRes × State1 :=
  if f.failBegin then (.storageErr, s)
  else if f.failGet then (.storageErr, s)
  else if f.failUpdate then (.storageErr, s)
  else
    let g := getBalance1 s.ledger s.accounts u
    let s1 : State1 := { s with accounts := updateBalance1 u g.bal g.tn s.accounts }
    if g.bal < amt then
      if f.failCommit then (.insufficient, s) else (.insufficient, s1)
    else if f.failInsert then (.storageErr, s)
    else if f.failCommit then (.storageErr, s)
    else (.ok, { s1 with ledger := s1.ledger ++ [⟨(s1.ledger.length : Int) + 1, some u, none, amt⟩] })

/-- transfer with injected failures. -/
def transfer1F (f : Failures) (s : State1) (ufrom uto amt : Int) : WRes × State1 :=
  if f.failBegin then (.storageErr, s)
  else if f.failGet then (.storageErr, s)
  else if f.failUpdate then (.storageErr, s)
  else
    let g := getBalance1 s.ledger s.accounts ufrom
    let s1 : State1 := { s with accounts := updateBalance1 ufrom g.bal g.tn s.accounts }
    if g.bal < amt then
      if f.failCommit then (.insufficient, s) else (.insufficient, s1)
    else if f.failInsert then (.storageErr, s)
    else if f.failCommit then (.storageErr, s)
    else (.ok, { s1 with ledger := s1.ledger ++ [⟨(s1.ledger.length : Int) + 1, some ufrom, some uto, amt⟩] })

/-- balance with injected failures (this copy rolls back explicitly on a
failed read or checkpoint write before returning). -/
def balanceOp1F (f : Failures) (s : State1) (u : Int) : WRes × State1 :=
  if f.failBegin then (.storageErr, s)
  else if f.failGet then (.storageErr, s)
  else if f.failUpdate then (.storageErr, s)
  else if f.failCommit then (.storageErr, s)
  else (.ok, (balanceOp1 s u).2)

/-! ## Helper lemmas: association list -/

theorem lookupAcc_upsert_self {β : Type} (u : Int) (c : β) (l : List (Int × β)) :
    lookupAcc u (upsert u c l) = some c := by
  induction l with
  | nil => simp [upsert, lookupAcc]
  | cons p t ih =>
    obtain ⟨v, d⟩ := p
    by_cases h : v = u
    · simp [upsert, lookupAcc, h]
    · simp [upsert, lookupAcc, h, ih]

theorem lookupAcc_upsert_ne {β : Type} {v u : Int} (hvu : v ≠ u) (c : β) (l : List (Int × β)) :
    lookupAcc v (upsert u c l) = lookupAcc v l := by
  have huv : u ≠ v := fun h => hvu h.symm
  induction l with
  | nil => simp [upsert, lookupAcc, huv]
  | cons p t ih =>
    obtain ⟨w, d⟩ := p
    by_cases h : w = u
    · subst h
      simp [upsert, lookupAcc, huv]
    · simp only [upsert, if_neg h]
      by_cases h2 : w = v
      · simp [lookupAcc, h2]
      · simp [lookupAcc, h2, ih]

theorem upsert_upsert {β : Type} (u : Int) (c d : β) (l : List (Int × β)) :
    upsert u c (upsert u d l) = upsert u c l := by
  induction l with
  | nil => simp [upsert]
  | cons p t ih =>
    obtain ⟨v, e⟩ := p
    by_cases h : v = u
    · simp [upsert, h]
    · simp [upsert, h, ih]

/-! ## Helper lemmas: SQL aggregates -/

theorem sqlSum_two_getD (a b : Option Int) :
    (sqlSum [a, b]).getD 0 = a.getD 0 + b.getD 0 := by
  rcases a with _ | x <;> rcases b with _ | y <;> simp [sqlSum, sqlAdd]

theorem map_neg_getD (x : Option Int) :
    ((x.map fun v => -v).getD 0) = -(x.getD 0) := by
  rcases x with _ | v <;> simp

theorem sqlMax_two_some_left (w : Int) (m : Option Int) :
    (sqlMax [some w, m]).getD 0 = omax w m := by
  rcases m with _ | v <;> simp [sqlMax, sqlJoin, omax]

theorem sqlMax_two_some_right (m : Option Int) (w : Int) :
    (sqlMax [m, some w]).getD 0 = omax w m := by
  rcases m with _ | v <;> simp [sqlMax, sqlJoin, omax, max_comm]

theorem sqlSumAmt_getD (l : List Entry) : (sqlSumAmt l).getD 0 = sumAmts l := by
  induction l with
  | nil => simp [sqlSumAmt, sumAmts]
  | cons e t ih =>
    simp only [sqlSumAmt, sumAmts]
    cases h : sqlSumAmt t with
    | none => simp [h] at ih; simp [ih]
    | some s => simp [h] at ih; simp [ih]

theorem sqlSumAmt_eq_none {l : List Entry} : sqlSumAmt l = none ↔ l = [] := by
  cases l with
  | nil => simp [sqlSumAmt]
  | cons e t =>
    simp only [sqlSumAmt]
    constructor
    · intro h
      cases hs : sqlSumAmt t <;> simp [hs] at h
    · intro h
      exact absurd h (by simp)

theorem sqlMaxSeq_eq_none {l : List Entry} : sqlMaxSeq l = none ↔ l = [] := by
  cases l with
  | nil => simp [sqlMaxSeq]
  | cons e t =>
    simp only [sqlMaxSeq]
    constructor
    · intro h
      cases hs : sqlMaxSeq t <;> simp [hs] at h
    · intro h
      exact absurd h (by simp)

theorem sqlMaxSeq_mem_le {l : List Entry} {e : Entry} {m : Int}
    (he : e ∈ l) (hm : sqlMaxSeq l = some m) : e.seq ≤ m := by
  induction l generalizing m with
  | nil => cases he
  | cons a t ih =>
    simp only [sqlMaxSeq] at hm
    rcases List.mem_cons.1 he with rfl | ht
    · cases hs : sqlMaxSeq t <;> simp [hs] at hm <;> omega
    · cases hs : sqlMaxSeq t with
      | none => exact absurd ht (by simp [sqlMaxSeq_eq_none.1 hs])
      | some m0 =>
        have := ih ht hs
        simp [hs] at hm
        omega

theorem sqlMaxSeq_le_of_all {l : List Entry} {B m : Int}
    (hall : ∀ e ∈ l, e.seq ≤ B) (hm : sqlMaxSeq l = some m) : m ≤ B := by
  induction l generalizing m with
  | nil => simp [sqlMaxSeq] at hm
  | cons a t ih =>
    simp only [sqlMaxSeq] at hm
    have ha := hall a (by simp)
    cases hs : sqlMaxSeq t with
    | none => simp [hs] at hm; omega
    | some m0 =>
      have := ih (fun e he => hall e (by simp [he])) hs
      simp [hs] at hm
      omega

theorem sqlMaxSeq_gt {l : List Entry} {w m : Int}
    (hall : ∀ e ∈ l, w < e.seq) (hm : sqlMaxSeq l = some m) : w < m := by
  induction l generalizing m with
  | nil => simp [sqlMaxSeq] at hm
  | cons a t ih =>
    simp only [sqlMaxSeq] at hm
    have ha := hall a (by simp)
    cases hs : sqlMaxSeq t with
    | none => simp [hs] at hm; omega
    | some m0 =>
      have := ih (fun e he => hall e (by simp [he])) hs
      simp [hs] at hm
      omega

theorem sqlSumAmt_pos {l : List Entry} {m : Int}
    (hall : ∀ e ∈ l, 0 < e.amount) (hm : sqlSumAmt l = some m) : 0 < m := by
  induction l generalizing m with
  | nil => simp [sqlSumAmt] at hm
  | cons a t ih =>
    simp only [sqlSumAmt] at hm
    have ha := hall a (by simp)
    cases hs : sqlSumAmt t with
    | none => simp [hs] at hm; omega
    | some m0 =>
      have := ih (fun e he => hall e (by simp [he])) hs
      simp [hs] at hm
      omega

/-! ## Helper lemmas: scans and sums -/

theorem mem_credAbove {u w : Int} {l : List Entry} {e : Entry} :
    e ∈ credAbove u w l ↔ e ∈ l ∧ e.userTo = some u ∧ w < e.seq := by
  induction l with
  | nil => simp [credAbove]
  | cons a t ih =>
    simp only [credAbove]
    by_cases h : a.userTo = some u ∧ w < a.seq
    · simp only [if_pos h, List.mem_cons, ih]
      constructor
      · rintro (rfl | ⟨ht, h2⟩)
        · exact ⟨Or.inl rfl, h⟩
        · exact ⟨Or.inr ht, h2⟩
      · rintro ⟨rfl | ht, h2⟩
        · exact Or.inl rfl
        · exact Or.inr ⟨ht, h2⟩
    · simp only [if_neg h, ih, List.mem_cons]
      constructor
      · rintro ⟨ht, h2⟩
        exact ⟨Or.inr ht, h2⟩
      · rintro ⟨rfl | ht, h2⟩
        · exact absurd h2 h
        · exact ⟨ht, h2⟩

theorem mem_debAbove {u w : Int} {l : List Entry} {e : Entry} :
    e ∈ debAbove u w l ↔ e ∈ l ∧ e.userFrom = some u ∧ w < e.seq := by
  induction l with
  | nil => simp [debAbove]
  | cons a t ih =>
    simp only [debAbove]
    by_cases h : a.userFrom = some u ∧ w < a.seq
    · simp only [if_pos h, List.mem_cons, ih]
      constructor
      · rintro (rfl | ⟨ht, h2⟩)
        · exact ⟨Or.inl rfl, h⟩
        · exact ⟨Or.inr ht, h2⟩
      · rintro ⟨rfl | ht, h2⟩
        · exact Or.inl rfl
        · exact Or.inr ⟨ht, h2⟩
    · simp only [if_neg h, ih, List.mem_cons]
      constructor
      · rintro ⟨ht, h2⟩
        exact ⟨Or.inr ht, h2⟩
      · rintro ⟨rfl | ht, h2⟩
        · exact absurd h2 h
        · exact ⟨ht, h2⟩

theorem credAbove_eq_nil {u w : Int} {l : List Entry}
    (h : ∀ e ∈ l, e.userTo = some u → e.seq ≤ w) : credAbove u w l = [] := by
  induction l with
  | nil => rfl
  | cons a t ih =>
    have hi := ih (fun e he => h e (by simp [he]))
    simp only [credAbove]
    by_cases hc : a.userTo = some u ∧ w < a.seq
    · exact absurd (h a (by simp) hc.1) (by omega)
    · simp [hc, hi]

theorem debAbove_eq_nil {u w : Int} {l : List Entry}
    (h : ∀ e ∈ l, e.userFrom = some u → e.seq ≤ w) : debAbove u w l = [] := by
  induction l with
  | nil => rfl
  | cons a t ih =>
    have hi := ih (fun e he => h e (by simp [he]))
    simp only [debAbove]
    by_cases hc : a.userFrom = some u ∧ w < a.seq
    · exact absurd (h a (by simp) hc.1) (by omega)
    · simp [hc, hi]

theorem totalCred_split (u w : Int) (l : List Entry) :
    totalCred u l = credUpTo u w l + sumAmts (credAbove u w l) := by
  induction l with
  | nil => simp [totalCred, credUpTo, credAbove, sumAmts]
  | cons a t ih =>
    simp only [totalCred, credUpTo, credAbove]
    by_cases hc : a.userTo = some u
    · by_cases hs : a.seq ≤ w
      · rw [if_pos hc, if_pos (And.intro hc hs),
          if_neg (by omega : ¬(a.userTo = some u ∧ w < a.seq))]
        omega
      · rw [if_pos hc, if_neg (by omega : ¬(a.userTo = some u ∧ a.seq ≤ w)),
          if_pos (And.intro hc (by omega : w < a.seq))]
        simp only [sumAmts]
        omega
    · rw [if_neg hc, if_neg (fun h => hc h.1), if_neg (fun h => hc h.1)]
      omega

theorem totalDeb_split (u w : Int) (l : List Entry) :
    totalDeb u l = debUpTo u w l + sumAmts (debAbove u w l) := by
  induction l with
  | nil => simp [totalDeb, debUpTo, debAbove, sumAmts]
  | cons a t ih =>
    simp only [totalDeb, debUpTo, debAbove]
    by_cases hc : a.userFrom = some u
    · by_cases hs : a.seq ≤ w
      · rw [if_pos hc, if_pos (And.intro hc hs),
          if_neg (by omega : ¬(a.userFrom = some u ∧ w < a.seq))]
        omega
      · rw [if_pos hc, if_neg (by omega : ¬(a.userFrom = some u ∧ a.seq ≤ w)),
          if_pos (And.intro hc (by omega : w < a.seq))]
        simp only [sumAmts]
        omega
    · rw [if_neg hc, if_neg (fun h => hc h.1), if_neg (fun h => hc h.1)]
      omega

theorem credUpTo_eq_totalCred {u M : Int} {l : List Entry}
    (h : ∀ e ∈ l, e.userTo = some u → e.seq ≤ M) : credUpTo u M l = totalCred u l := by
  have := totalCred_split u M l
  rw [credAbove_eq_nil h] at this
  simp only [sumAmts] at this
  omega

theorem debUpTo_eq_totalDeb {u M : Int} {l : List Entry}
    (h : ∀ e ∈ l, e.userFrom = some u → e.seq ≤ M) : debUpTo u M l = totalDeb u l := by
  have := totalDeb_split u M l
  rw [debAbove_eq_nil h] at this
  simp only [sumAmts] at this
  omega

theorem credUpTo_congr {u w M : Int} {l : List Entry} (hwM : w ≤ M)
    (h : ∀ e ∈ l, e.userTo = some u → e.seq ≤ w ∨ M < e.seq) :
    credUpTo u M l = credUpTo u w l := by
  induction l with
  | nil => rfl
  | cons a t ih =>
    have hi := ih (fun e he => h e (by simp [he]))
    simp only [credUpTo]
    by_cases hc : a.userTo = some u
    · rcases h a (by simp) hc with hle | hgt
      · rw [if_pos (And.intro hc (by omega : a.seq ≤ M)), if_pos (And.intro hc hle), hi]
      · rw [if_neg (by omega : ¬(a.userTo = some u ∧ a.seq ≤ M)),
          if_neg (by omega : ¬(a.userTo = some u ∧ a.seq ≤ w)), hi]
    · rw [if_neg (fun hh => hc hh.1), if_neg (fun hh => hc hh.1), hi]

theorem debUpTo_congr {u w M : Int} {l : List Entry} (hwM : w ≤ M)
    (h : ∀ e ∈ l, e.userFrom = some u → e.seq ≤ w ∨ M < e.seq) :
    debUpTo u M l = debUpTo u w l := by
  induction l with
  | nil => rfl
  | cons a t ih =>
    have hi := ih (fun e he => h e (by simp [he]))
    simp only [debUpTo]
    by_cases hc : a.userFrom = some u
    · rcases h a (by simp) hc with hle | hgt
      · rw [if_pos (And.intro hc (by omega : a.seq ≤ M)), if_pos (And.intro hc hle), hi]
      · rw [if_neg (by omega : ¬(a.userFrom = some u ∧ a.seq ≤ M)),
          if_neg (by omega : ¬(a.userFrom = some u ∧ a.seq ≤ w)), hi]
    · rw [if_neg (fun hh => hc hh.1), if_neg (fun hh => hc hh.1), hi]

theorem credUpTo_append (u M : Int) (l1 l2 : List Entry) :
    credUpTo u M (l1 ++ l2) = credUpTo u M l1 + credUpTo u M l2 := by
  induction l1 with
  | nil => simp [credUpTo]
  | cons a t ih =>
    rw [List.cons_append]
    simp only [credUpTo]
    rw [ih]
    omega

theorem debUpTo_append (u M : Int) (l1 l2 : List Entry) :
    debUpTo u M (l1 ++ l2) = debUpTo u M l1 + debUpTo u M l2 := by
  induction l1 with
  | nil => simp [debUpTo]
  | cons a t ih =>
    rw [List.cons_append]
    simp only [debUpTo]
    rw [ih]
    omega

theorem totalCred_append (u : Int) (l1 l2 : List Entry) :
    totalCred u (l1 ++ l2) = totalCred u l1 + totalCred u l2 := by
  induction l1 with
  | nil => simp [totalCred]
  | cons a t ih =>
    rw [List.cons_append]
    simp only [totalCred]
    rw [ih]
    omega

theorem totalDeb_append (u : Int) (l1 l2 : List Entry) :
    totalDeb u (l1 ++ l2) = totalDeb u l1 + totalDeb u l2 := by
  induction l1 with
  | nil => simp [totalDeb]
  | cons a t ih =>
    rw [List.cons_append]
    simp only [totalDeb]
    rw [ih]
    omega

theorem depositTotal_append (l1 l2 : List Entry) :
    depositTotal (l1 ++ l2) = depositTotal l1 + depositTotal l2 := by
  induction l1 with
  | nil => simp [depositTotal]
  | cons a t ih =>
    rw [List.cons_append]
    simp only [depositTotal]
    rw [ih]
    omega

theorem withdrawalTotal_append (l1 l2 : List Entry) :
    withdrawalTotal (l1 ++ l2) = withdrawalTotal l1 + withdrawalTotal l2 := by
  induction l1 with
  | nil => simp [withdrawalTotal]
  | cons a t ih =>
    rw [List.cons_append]
    simp only [withdrawalTotal]
    rw [ih]
    omega

/-! ## Closed forms of the two getBalance queries -/

/-- In the dual-counter query the UNION never deduplicates: the debit
row's tn_send column is either NULL or strictly greater than the send
watermark, while the credit row's tn_send column is the watermark
itself. -/
theorem getBalance2Core_spec (l : List Entry) (cp : Account2) (u : Int) :
    getBalance2Core l cp u =
      { bal := cp.sum + sumAmts (credAbove u cp.tnRecv l) - sumAmts (debAbove u cp.tnSend l),
        tnSend := omax cp.tnSend (sqlMaxSeq (debAbove u cp.tnSend l)),
        tnRecv := omax cp.tnRecv (sqlMaxSeq (credAbove u cp.tnRecv l)) } := by
  have hdr : ∀ e ∈ debAbove u cp.tnSend l, cp.tnSend < e.seq :=
    fun e he => (mem_debAbove.1 he).2.2
  have hne2 : (some cp.tnSend : Option Int) ≠ sqlMaxSeq (debAbove u cp.tnSend l) := by
    cases hm : sqlMaxSeq (debAbove u cp.tnSend l) with
    | none => simp
    | some m =>
      have := sqlMaxSeq_gt hdr hm
      simp only [ne_eq, Option.some.injEq]
      omega
  have hne : (sqlSumAmt (credAbove u cp.tnRecv l), some cp.tnSend,
      sqlMaxSeq (credAbove u cp.tnRecv l)) ≠
      ((sqlSumAmt (debAbove u cp.tnSend l)).map (fun x => -x),
       sqlMaxSeq (debAbove u cp.tnSend l), some cp.tnRecv) := by
    intro h
    exact hne2 (congrArg (fun r => r.2.1) h)
  simp only [getBalance2Core]
  rw [if_neg hne]
  simp only [List.map]
  refine GB2.mk.injEq _ _ _ _ _ _ ▸ ?_
  refine ⟨?_, ?_, ?_⟩
  · rw [sqlSum_two_getD, map_neg_getD, sqlSumAmt_getD, sqlSumAmt_getD]
    omega
  · exact sqlMax_two_some_left cp.tnSend (sqlMaxSeq (debAbove u cp.tnSend l))
  · exact sqlMax_two_some_right (sqlMaxSeq (credAbove u cp.tnRecv l)) cp.tnRecv

/-- Closed form of the single-counter getBalance query under positive
amounts.  Both subqueries share the watermark `cp.tn`; with positive
amounts the UNION can only deduplicate when both scan sets are empty, and
then the deduplicated and non-deduplicated queries agree. -/
theorem getBalance1Core_spec (l : List Entry) (cp : Account1) (u : Int)
    (hpos : ∀ e ∈ l, 0 < e.amount) :
    getBalance1Core l cp u =
      { bal := cp.sum + sumAmts (credAbove u cp.tn l) - sumAmts (debAbove u cp.tn l),
        tn := (sqlMax [sqlMaxSeq (credAbove u cp.tn l),
                       sqlMaxSeq (debAbove u cp.tn l)]).getD cp.tn } := by
  by_cases hboth : credAbove u cp.tn l = [] ∧ debAbove u cp.tn l = []
  · simp only [getBalance1Core, hboth.1, hboth.2]
    simp [sqlSumAmt, sqlMaxSeq, sqlSum, sqlMax, sqlAdd, sqlJoin, sumAmts]
  · have hne : ((sqlSumAmt (credAbove u cp.tn l), sqlMaxSeq (credAbove u cp.tn l)) :
        Option Int × Option Int) ≠
        ((sqlSumAmt (debAbove u cp.tn l)).map (fun x => -x), sqlMaxSeq (debAbove u cp.tn l)) := by
      intro h
      have h1 := congrArg (fun r => r.1) h
      simp only at h1
      by_cases hcr : credAbove u cp.tn l = []
      · have hdr : debAbove u cp.tn l ≠ [] := fun hd => hboth ⟨hcr, hd⟩
        rcases hd : sqlSumAmt (debAbove u cp.tn l) with _ | sD
        · exact hdr (sqlSumAmt_eq_none.1 hd)
        · rw [hcr, hd] at h1
          simp [sqlSumAmt] at h1
      · rcases hc : sqlSumAmt (credAbove u cp.tn l) with _ | sC
        · exact hcr (sqlSumAmt_eq_none.1 hc)
        · have hsC : 0 < sC :=
            sqlSumAmt_pos (fun e he => hpos e (mem_credAbove.1 he).1) hc
          rcases hd : sqlSumAmt (debAbove u cp.tn l) with _ | sD
          · rw [hc, hd] at h1
            simp at h1
          · have hsD : 0 < sD :=
              sqlSumAmt_pos (fun e he => hpos e (mem_debAbove.1 he).1) hd
            rw [hc, hd] at h1
            simp only [Option.map_some', Option.some.injEq] at h1
            omega
    simp only [getBalance1Core]
    rw [if_neg hne]
    simp only [List.map]
    refine GB1.mk.injEq _ _ _ _ ▸ ?_
    refine ⟨?_, rfl⟩
    rw [sqlSum_two_getD, map_neg_getD, sqlSumAmt_getD, sqlSumAmt_getD]
    omega

/-! ## Checkpoint soundness invariant for the dual-counter variant -/

theorem credUpTo_eq_zero {u M : Int} {l : List Entry}
    (h : ∀ e ∈ l, M < e.seq) : credUpTo u M l = 0 := by
  induction l with
  | nil => rfl
  | cons a t ih =>
    have hi := ih (fun e he => h e (by simp [he]))
    simp only [credUpTo]
    rw [if_neg (by have := h a (by simp); omega : ¬(a.userTo = some u ∧ a.seq ≤ M)), hi]
    omega

theorem debUpTo_eq_zero {u M : Int} {l : List Entry}
    (h : ∀ e ∈ l, M < e.seq) : debUpTo u M l = 0 := by
  induction l with
  | nil => rfl
  | cons a t ih =>
    have hi := ih (fun e he => h e (by simp [he]))
    simp only [debUpTo]
    rw [if_neg (by have := h a (by simp); omega : ¬(a.userFrom = some u ∧ a.seq ≤ M)), hi]
    omega

theorem le_omax (w : Int) (m : Option Int) : w ≤ omax w m := by
  cases m with
  | none => simp [omax]
  | some v => simp [omax]

/-- Soundness of one checkpoint row against the ledger: both watermarks
are bounded by the current ledger length, the cached balance accounts for
exactly the credits up to the recv watermark minus the debits up to the
send watermark, and every entry touching the account lies at or below its
watermark or strictly above both watermarks. -/
def AccInv2 (l : List Entry) (u : Int) (cp : Account2) : Prop :=
  cp.tnSend ≤ (l.length : Int) ∧ cp.tnRecv ≤ (l.length : Int) ∧
  cp.sum = credUpTo u cp.tnRecv l - debUpTo u cp.tnSend l ∧
  (∀ e ∈ l, e.userTo = some u → e.seq ≤ cp.tnRecv ∨ (cp.tnRecv < e.seq ∧ cp.tnSend < e.seq)) ∧
  (∀ e ∈ l, e.userFrom = some u → e.seq ≤ cp.tnSend ∨ (cp.tnRecv < e.seq ∧ cp.tnSend < e.seq))

/-- Global invariant of dual-counter states: sequence numbers are the
positions 1..n of the append-only ledger, and every persisted checkpoint
row is sound. -/
def Inv2 (s : State2) : Prop :=
  (∀ e ∈ s.ledger, 0 < e.seq ∧ e.seq ≤ (s.ledger.length : Int)) ∧
  ∀ u cp, lookupAcc u s.accounts = some cp → AccInv2 s.ledger u cp

theorem accInv2_zero {l : List Entry} (u : Int)
    (hseq : ∀ e ∈ l, 0 < e.seq ∧ e.seq ≤ (l.length : Int)) :
    AccInv2 l u ⟨0, 0, 0⟩ := by
  refine ⟨by positivity, by positivity, ?_, ?_, ?_⟩
  · rw [credUpTo_eq_zero (fun e he => (hseq e he).1),
      debUpTo_eq_zero (fun e he => (hseq e he).1)]
    simp
  · intro e he _
    exact Or.inr ⟨(hseq e he).1, (hseq e he).1⟩
  · intro e he _
    exact Or.inr ⟨(hseq e he).1, (hseq e he).1⟩

/-- Reconciling a sound checkpoint returns the true ledger balance, and
the proposed new checkpoint is again sound. -/
theorem accInv2_reconcile {l : List Entry} {u : Int} {cp : Account2}
    (hseq : ∀ e ∈ l, 0 < e.seq ∧ e.seq ≤ (l.length : Int))
    (hacc : AccInv2 l u cp) :
    (getBalance2Core l cp u).bal = balOf l u ∧
    AccInv2 l u ⟨(getBalance2Core l cp u).tnSend, (getBalance2Core l cp u).tnRecv,
      (getBalance2Core l cp u).bal⟩ := by
  obtain ⟨hsb, hrb, hsum, hcredd, hdebd⟩ := hacc
  rw [getBalance2Core_spec]
  dsimp only
  have hallcred : ∀ e ∈ l, e.userTo = some u →
      e.seq ≤ omax cp.tnRecv (sqlMaxSeq (credAbove u cp.tnRecv l)) := by
    intro e he hc
    rcases hcredd e he hc with h | h
    · exact le_trans h (le_omax _ _)
    · have hin : e ∈ credAbove u cp.tnRecv l := mem_credAbove.2 ⟨he, hc, h.1⟩
      cases hm : sqlMaxSeq (credAbove u cp.tnRecv l) with
      | none =>
        rw [sqlMaxSeq_eq_none] at hm
        rw [hm] at hin
        cases hin
      | some m =>
        have := sqlMaxSeq_mem_le hin hm
        simp only [omax]
        omega
  have halldeb : ∀ e ∈ l, e.userFrom = some u →
      e.seq ≤ omax cp.tnSend (sqlMaxSeq (debAbove u cp.tnSend l)) := by
    intro e he hc
    rcases hdebd e he hc with h | h
    · exact le_trans h (le_omax _ _)
    · have hin : e ∈ debAbove u cp.tnSend l := mem_debAbove.2 ⟨he, hc, h.2⟩
      cases hm : sqlMaxSeq (debAbove u cp.tnSend l) with
      | none =>
        rw [sqlMaxSeq_eq_none] at hm
        rw [hm] at hin
        cases hin
      | some m =>
        have := sqlMaxSeq_mem_le hin hm
        simp only [omax]
        omega
  have hbal : cp.sum + sumAmts (credAbove u cp.tnRecv l) - sumAmts (debAbove u cp.tnSend l) =
      balOf l u := by
    have h1 := totalCred_split u cp.tnRecv l
    have h2 := totalDeb_split u cp.tnSend l
    simp only [balOf]
    omega
  refine ⟨hbal, ?_, ?_, ?_, ?_, ?_⟩
  · cases hm : sqlMaxSeq (debAbove u cp.tnSend l) with
    | none => simpa [omax] using hsb
    | some m =>
      have hmle : m ≤ (l.length : Int) :=
        sqlMaxSeq_le_of_all (fun e he => (hseq e (mem_debAbove.1 he).1).2) hm
      simp only [omax]
      omega
  · cases hm : sqlMaxSeq (credAbove u cp.tnRecv l) with
    | none => simpa [omax] using hrb
    | some m =>
      have hmle : m ≤ (l.length : Int) :=
        sqlMaxSeq_le_of_all (fun e he => (hseq e (mem_credAbove.1 he).1).2) hm
      simp only [omax]
      omega
  · rw [credUpTo_eq_totalCred hallcred, debUpTo_eq_totalDeb halldeb, hbal]
    simp only [balOf]
  · intro e he hc
    exact Or.inl (hallcred e he hc)
  · intro e he hc
    exact Or.inl (halldeb e he hc)

/-- Appending an entry with a fresh sequence number preserves checkpoint
soundness. -/
theorem accInv2_append {l : List Entry} {u : Int} {cp : Account2} {e : Entry}
    (hacc : AccInv2 l u cp) (he : e.seq = (l.length : Int) + 1) :
    AccInv2 (l ++ [e]) u cp := by
  obtain ⟨hsb, hrb, hsum, hcredd, hdebd⟩ := hacc
  have hlen : ((l ++ [e]).length : Int) = (l.length : Int) + 1 := by
    simp
  refine ⟨by omega, by omega, ?_, ?_, ?_⟩
  · rw [credUpTo_append, debUpTo_append]
    have hc1 : credUpTo u cp.tnRecv [e] = 0 := by
      simp only [credUpTo]
      rw [if_neg (by omega : ¬(e.userTo = some u ∧ e.seq ≤ cp.tnRecv))]
      omega
    have hd1 : debUpTo u cp.tnSend [e] = 0 := by
      simp only [debUpTo]
      rw [if_neg (by omega : ¬(e.userFrom = some u ∧ e.seq ≤ cp.tnSend))]
      omega
    omega
  · intro e' he' hc
    rcases List.mem_append.1 he' with h | h
    · exact hcredd e' h hc
    · have : e' = e := by simpa using h
      subst this
      exact Or.inr ⟨by omega, by omega⟩
  · intro e' he' hc
    rcases List.mem_append.1 he' with h | h
    · exact hdebd e' h hc
    · have : e' = e := by simpa using h
      subst this
      exact Or.inr ⟨by omega, by omega⟩

theorem inv2_init : Inv2 init2 := by
  constructor
  · intro e he
    cases he
  · intro u cp h
    simp [init2, lookupAcc] at h

theorem inv2_reconcile (s : State2) (u : Int) (hs : Inv2 s) :
    Inv2 ⟨s.ledger, updateBalance2 u (getBalance2 s.ledger s.accounts u).bal
      (getBalance2 s.ledger s.accounts u).tnSend
      (getBalance2 s.ledger s.accounts u).tnRecv s.accounts⟩ := by
  obtain ⟨hseq, hacc⟩ := hs
  refine ⟨hseq, ?_⟩
  intro v cp' hv
  by_cases hvu : v = u
  · subst hvu
    rw [updateBalance2, lookupAcc_upsert_self] at hv
    have hacc0 : AccInv2 s.ledger v ((lookupAcc v s.accounts).getD ⟨0, 0, 0⟩) := by
      cases hl : lookupAcc v s.accounts with
      | none => simpa using accInv2_zero v hseq
      | some c => simpa using hacc v c hl
    have h2 := (accInv2_reconcile hseq hacc0).2
    have hv' : cp' = ⟨(getBalance2 s.ledger s.accounts v).tnSend,
        (getBalance2 s.ledger s.accounts v).tnRecv,
        (getBalance2 s.ledger s.accounts v).bal⟩ := by
      exact (Option.some_inj.1 hv).symm
    rw [hv']
    exact h2
  · rw [updateBalance2, lookupAcc_upsert_ne hvu] at hv
    exact hacc v cp' hv

theorem inv2_append (s : State2) (uf ut : Option Int) (amt : Int) (hs : Inv2 s) :
    Inv2 ⟨s.ledger ++ [⟨(s.ledger.length : Int) + 1, uf, ut, amt⟩], s.accounts⟩ := by
  obtain ⟨hseq, hacc⟩ := hs
  have hlen : (((s.ledger ++ [(⟨(s.ledger.length : Int) + 1, uf, ut, amt⟩ : Entry)]).length : Int))
      = (s.ledger.length : Int) + 1 := by
    simp
  constructor
  · intro e he
    rcases List.mem_append.1 he with h | h
    · have := hseq e h
      constructor
      · omega
      · rw [hlen]
        omega
    · have : e = ⟨(s.ledger.length : Int) + 1, uf, ut, amt⟩ := by simpa using h
      subst this
      rw [hlen]
      constructor
      · simp only
        omega
      · simp only
        omega
  · intro v cp hv
    exact accInv2_append (hacc v cp hv) rfl

theorem inv2_step (o : Op) (s : State2) (hs : Inv2 s) : Inv2 (step2 o s) := by
  obtain ⟨l, a⟩ := s
  cases o with
  | deposit u amt =>
    exact inv2_append ⟨l, a⟩ none (some u) amt hs
  | getbal u =>
    exact inv2_reconcile ⟨l, a⟩ u hs
  | withdraw u amt =>
    have h1 := inv2_reconcile ⟨l, a⟩ u hs
    by_cases h : (getBalance2 l a u).bal < amt
    · simpa [step2, withdraw2, h] using h1
    · have h2 := inv2_append _ (some u) none amt h1
      simpa [step2, withdraw2, h] using h2
  | transfer uf ut amt =>
    have h1 := inv2_reconcile ⟨l, a⟩ uf hs
    by_cases h : (getBalance2 l a uf).bal < amt
    · simpa [step2, transfer2, h] using h1
    · have h2 := inv2_append _ (some uf) (some ut) amt h1
      simpa [step2, transfer2, h] using h2

theorem inv2_reachable {s : State2} (h : Reachable2 s) : Inv2 s := by
  induction h with
  | init => exact inv2_init
  | step o _ ih => exact inv2_step o _ ih

/-- The predicate claimed as the checkpoint invariant: every persisted
checkpoint row caches exactly the net balance of the ledger entries with
sequence at most `max lastCreditSequence lastDebitSequence` that touch
the account. -/
def CachedOK2 (s : State2) : Prop :=
  ∀ u cp, lookupAcc u s.accounts = some cp →
    cp.sum = credUpTo u (max cp.tnRecv cp.tnSend) s.ledger
      - debUpTo u (max cp.tnRecv cp.tnSend) s.ledger

theorem cachedOK2_of_inv {s : State2} (hs : Inv2 s) : CachedOK2 s := by
  intro u cp h
  obtain ⟨hseq, hacc⟩ := hs
  obtain ⟨hsb, hrb, hsum, hcredd, hdebd⟩ := hacc u cp h
  have hc : credUpTo u (max cp.tnRecv cp.tnSend) s.ledger = credUpTo u cp.tnRecv s.ledger := by
    refine credUpTo_congr (le_max_left _ _) ?_
    intro e he hto
    rcases hcredd e he hto with h1 | h1
    · exact Or.inl h1
    · refine Or.inr ?_
      rcases h1 with ⟨ha, hb⟩
      exact max_lt ha hb
  have hd : debUpTo u (max cp.tnRecv cp.tnSend) s.ledger = debUpTo u cp.tnSend s.ledger := by
    refine debUpTo_congr (le_max_right _ _) ?_
    intro e he hfrom
    rcases hdebd e he hfrom with h1 | h1
    · exact Or.inl h1
    · refine Or.inr ?_
      rcases h1 with ⟨ha, hb⟩
      exact max_lt ha hb
  rw [hc, hd]
  exact hsum

/-- C1: on every reachable dual-counter state, every persisted checkpoint
row caches exactly the balance derived from the ledger entries with
sequence at most `max lastCreditSequence lastDebitSequence` that touch
the account (credits added, debits subtracted), and every operation
(Deposit, Withdraw, Transfer, GetBalance) preserves this predicate. -/
theorem C1_cached_balance_invariant {s : State2} (hs : Reachable2 s) :
    CachedOK2 s ∧ ∀ o : Op, CachedOK2 (step2 o s) :=
  ⟨cachedOK2_of_inv (inv2_reachable hs),
   fun o => cachedOK2_of_inv (inv2_reachable (Reachable2.step o hs))⟩

theorem C1_cached_balance_invariant_witness :
    CachedOK2 (step2 (Op.getbal 1) (step2 (Op.deposit 1 40) init2)) :=
  (C1_cached_balance_invariant
    (Reachable2.step (Op.getbal 1) (Reachable2.step (Op.deposit 1 40) Reachable2.init))).1

/-- Every credit entry lies at or below the recv watermark proposed by a
reconciliation (for any starting checkpoint whatsoever). -/
theorem all_cred_le_after (l : List Entry) (cp : Account2) (u : Int) :
    ∀ e ∈ l, e.userTo = some u → e.seq ≤ (getBalance2Core l cp u).tnRecv := by
  rw [getBalance2Core_spec]
  dsimp only
  intro e he hc
  by_cases h : cp.tnRecv < e.seq
  · have hin := mem_credAbove.2 ⟨he, hc, h⟩
    cases hm : sqlMaxSeq (credAbove u cp.tnRecv l) with
    | none =>
      rw [sqlMaxSeq_eq_none] at hm
      rw [hm] at hin
      cases hin
    | some m =>
      have := sqlMaxSeq_mem_le hin hm
      simp only [omax]
      omega
  · exact le_trans (by omega) (le_omax _ _)

/-- Every debit entry lies at or below the send watermark proposed by a
reconciliation. -/
theorem all_deb_le_after (l : List Entry) (cp : Account2) (u : Int) :
    ∀ e ∈ l, e.userFrom = some u → e.seq ≤ (getBalance2Core l cp u).tnSend := by
  rw [getBalance2Core_spec]
  dsimp only
  intro e he hc
  by_cases h : cp.tnSend < e.seq
  · have hin := mem_debAbove.2 ⟨he, hc, h⟩
    cases hm : sqlMaxSeq (debAbove u cp.tnSend l) with
    | none =>
      rw [sqlMaxSeq_eq_none] at hm
      rw [hm] at hin
      cases hin
    | some m =>
      have := sqlMaxSeq_mem_le hin hm
      simp only [omax]
      omega
  · exact le_trans (by omega) (le_omax _ _)

/-- Reconciling a state whose checkpoint row for `u` was just produced by
a reconciliation over the same ledger returns the same result again. -/
theorem getBalance2Core_stable (l : List Entry) (g : GB2) (u : Int)
    (hcred : ∀ e ∈ l, e.userTo = some u → e.seq ≤ g.tnRecv)
    (hdeb : ∀ e ∈ l, e.userFrom = some u → e.seq ≤ g.tnSend) :
    getBalance2Core l ⟨g.tnSend, g.tnRecv, g.bal⟩ u = g := by
  rw [getBalance2Core_spec]
  dsimp only
  rw [credAbove_eq_nil hcred, debAbove_eq_nil hdeb]
  simp only [sumAmts, sqlMaxSeq, omax, add_zero, sub_zero]

/-- C9: GetBalance twice with no intervening mutation returns the same
balance both times, and the second call leaves the entire persisted state
(ledger and checkpoint row) exactly as the first call left it. -/
theorem C9_getbalance_idempotent (s : State2) (u : Int) :
    (balanceOp2 (balanceOp2 s u).2 u).1 = (balanceOp2 s u).1 ∧
    (balanceOp2 (balanceOp2 s u).2 u).2 = (balanceOp2 s u).2 := by
  have hcp : lookupAcc u (updateBalance2 u (getBalance2 s.ledger s.accounts u).bal
      (getBalance2 s.ledger s.accounts u).tnSend
      (getBalance2 s.ledger s.accounts u).tnRecv s.accounts) =
      some ⟨(getBalance2 s.ledger s.accounts u).tnSend,
        (getBalance2 s.ledger s.accounts u).tnRecv,
        (getBalance2 s.ledger s.accounts u).bal⟩ := by
    rw [updateBalance2, lookupAcc_upsert_self]
  have hsame : getBalance2 s.ledger (updateBalance2 u (getBalance2 s.ledger s.accounts u).bal
      (getBalance2 s.ledger s.accounts u).tnSend
      (getBalance2 s.ledger s.accounts u).tnRecv s.accounts) u =
      getBalance2 s.ledger s.accounts u := by
    unfold getBalance2 at hcp ⊢
    rw [hcp]
    simp only [Option.getD_some]
    have hc := all_cred_le_after s.ledger ((lookupAcc u s.accounts).getD ⟨0, 0, 0⟩) u
    have hd := all_deb_le_after s.ledger ((lookupAcc u s.accounts).getD ⟨0, 0, 0⟩) u
    exact getBalance2Core_stable s.ledger _ u hc hd
  constructor
  · simp only [balanceOp2]
    rw [hsame]
  · simp only [balanceOp2]
    rw [hsame]
    simp only [updateBalance2, upsert_upsert]

/-- Every operation's effect on the accounts table: deposits leave it
alone, the other three upsert the reconciled row of their gating
account. -/
theorem withdraw2_accounts (s : State2) (u amt : Int) :
    ((withdraw2 s u amt).2).accounts =
      updateBalance2 u (getBalance2 s.ledger s.accounts u).bal
        (getBalance2 s.ledger s.accounts u).tnSend
        (getBalance2 s.ledger s.accounts u).tnRecv s.accounts := by
  by_cases h : (getBalance2 s.ledger s.accounts u).bal < amt <;>
    simp [withdraw2, h]

theorem transfer2_accounts (s : State2) (uf ut amt : Int) :
    ((transfer2 s uf ut amt).2).accounts =
      updateBalance2 uf (getBalance2 s.ledger s.accounts uf).bal
        (getBalance2 s.ledger s.accounts uf).tnSend
        (getBalance2 s.ledger s.accounts uf).tnRecv s.accounts := by
  by_cases h : (getBalance2 s.ledger s.accounts uf).bal < amt <;>
    simp [transfer2, h]

/-- A reconciliation upsert never lowers either watermark of any row. -/
theorem watermark_mono_upsert (l : List Entry) (a : List (Int × Account2)) (v u : Int)
    {cp cp' : Account2} (h : lookupAcc u a = some cp)
    (h' : lookupAcc u (updateBalance2 v (getBalance2 l a v).bal
      (getBalance2 l a v).tnSend (getBalance2 l a v).tnRecv a) = some cp') :
    cp.tnSend ≤ cp'.tnSend ∧ cp.tnRecv ≤ cp'.tnRecv := by
  by_cases huv : u = v
  · subst huv
    rw [updateBalance2, lookupAcc_upsert_self] at h'
    have hcp' : cp' = ⟨(getBalance2 l a u).tnSend, (getBalance2 l a u).tnRecv,
        (getBalance2 l a u).bal⟩ := (Option.some_inj.1 h').symm
    subst hcp'
    have hg : getBalance2 l a u = getBalance2Core l cp u := by
      unfold getBalance2
      rw [h, Option.getD_some]
    rw [hg, getBalance2Core_spec]
    dsimp only
    exact ⟨le_omax _ _, le_omax _ _⟩
  · rw [updateBalance2, lookupAcc_upsert_ne huv] at h'
    rw [h] at h'
    rw [Option.some_inj.1 h']
    exact ⟨le_refl _, le_refl _⟩

/-- C8: one operation never decreases the persisted watermarks of any
account's checkpoint row; hence across every sequence of operations,
successive persisted checkpoints have non-decreasing
`lastCreditSequence` and `lastDebitSequence`. -/
theorem C8_watermarks_monotonic (s : State2) (o : Op) (u : Int) (cp cp' : Account2)
    (h : lookupAcc u s.accounts = some cp)
    (h' : lookupAcc u (step2 o s).accounts = some cp') :
    cp.tnSend ≤ cp'.tnSend ∧ cp.tnRecv ≤ cp'.tnRecv := by
  cases o with
  | deposit v amt =>
    have ha : (step2 (Op.deposit v amt) s).accounts = s.accounts := rfl
    rw [ha, h] at h'
    rw [Option.some_inj.1 h']
    exact ⟨le_refl _, le_refl _⟩
  | withdraw v amt =>
    have ha := withdraw2_accounts s v amt
    rw [show (step2 (Op.withdraw v amt) s).accounts = ((withdraw2 s v amt).2).accounts from rfl,
      ha] at h'
    exact watermark_mono_upsert s.ledger s.accounts v u h h'
  | transfer vf vt amt =>
    have ha := transfer2_accounts s vf vt amt
    rw [show (step2 (Op.transfer vf vt amt) s).accounts =
      ((transfer2 s vf vt amt).2).accounts from rfl, ha] at h'
    exact watermark_mono_upsert s.ledger s.accounts vf u h h'
  | getbal v =>
    have h'' : lookupAcc u (updateBalance2 v (getBalance2 s.ledger s.accounts v).bal
        (getBalance2 s.ledger s.accounts v).tnSend
        (getBalance2 s.ledger s.accounts v).tnRecv s.accounts) = some cp' := h'
    exact watermark_mono_upsert s.ledger s.accounts v u h h''

theorem C8_watermarks_monotonic_witness :
    (Account2.mk 0 0 0).tnSend ≤
      ((lookupAcc 1 (step2 (Op.getbal 1)
        ⟨[⟨1, none, some 1, 40⟩], [(1, ⟨0, 0, 0⟩)]⟩).accounts).getD ⟨9, 9, 9⟩).tnSend ∧
    (Account2.mk 0 0 0).tnRecv ≤
      ((lookupAcc 1 (step2 (Op.getbal 1)
        ⟨[⟨1, none, some 1, 40⟩], [(1, ⟨0, 0, 0⟩)]⟩).accounts).getD ⟨9, 9, 9⟩).tnRecv :=
  C8_watermarks_monotonic ⟨[⟨1, none, some 1, 40⟩], [(1, ⟨0, 0, 0⟩)]⟩ (Op.getbal 1) 1
    ⟨0, 0, 0⟩ _ (by decide) (by decide)

/-- C2: one reconciliation of the dual-counter variant returns
`cachedBalance + (credits with sequence above the credit watermark)
- (debits with sequence above the debit watermark)`, and proposes
watermarks `max(old, maximum observed sequence)` on each side, the old
watermark standing when the scan observed nothing. -/
theorem C2_getbalance_formula (l : List Entry) (accs : List (Int × Account2)) (u : Int) :
    getBalance2 l accs u =
      { bal := ((lookupAcc u accs).getD ⟨0, 0, 0⟩).sum
          + sumAmts (credAbove u ((lookupAcc u accs).getD ⟨0, 0, 0⟩).tnRecv l)
          - sumAmts (debAbove u ((lookupAcc u accs).getD ⟨0, 0, 0⟩).tnSend l),
        tnSend := omax ((lookupAcc u accs).getD ⟨0, 0, 0⟩).tnSend
          (sqlMaxSeq (debAbove u ((lookupAcc u accs).getD ⟨0, 0, 0⟩).tnSend l)),
        tnRecv := omax ((lookupAcc u accs).getD ⟨0, 0, 0⟩).tnRecv
          (sqlMaxSeq (credAbove u ((lookupAcc u accs).getD ⟨0, 0, 0⟩).tnRecv l)) } :=
  getBalance2Core_spec l ((lookupAcc u accs).getD ⟨0, 0, 0⟩) u

/-! ## Single-counter variant: invariant and balance lemmas -/

theorem credAbove_append (u w : Int) (l1 l2 : List Entry) :
    credAbove u w (l1 ++ l2) = credAbove u w l1 ++ credAbove u w l2 := by
  induction l1 with
  | nil => simp [credAbove]
  | cons a t ih =>
    rw [List.cons_append]
    simp only [credAbove]
    by_cases h : a.userTo = some u ∧ w < a.seq
    · rw [if_pos h, if_pos h, ih, List.cons_append]
    · rw [if_neg h, if_neg h, ih]

theorem debAbove_append (u w : Int) (l1 l2 : List Entry) :
    debAbove u w (l1 ++ l2) = debAbove u w l1 ++ debAbove u w l2 := by
  induction l1 with
  | nil => simp [debAbove]
  | cons a t ih =>
    rw [List.cons_append]
    simp only [debAbove]
    by_cases h : a.userFrom = some u ∧ w < a.seq
    · rw [if_pos h, if_pos h, ih, List.cons_append]
    · rw [if_neg h, if_neg h, ih]

theorem sqlMaxSeq_exists_mem {l : List Entry} {m : Int}
    (hm : sqlMaxSeq l = some m) : ∃ e ∈ l, e.seq = m := by
  induction l generalizing m with
  | nil => simp [sqlMaxSeq] at hm
  | cons a t ih =>
    simp only [sqlMaxSeq] at hm
    cases hs : sqlMaxSeq t with
    | none =>
      simp only [hs] at hm
      refine ⟨a, by simp, ?_⟩
      simp only [Option.some.injEq] at hm
      omega
    | some m0 =>
      simp only [hs, Option.some.injEq] at hm
      rcases max_choice a.seq m0 with h | h
      · exact ⟨a, by simp, by omega⟩
      · obtain ⟨e, he, hme⟩ := ih hs
        exact ⟨e, by simp [he], by omega⟩

/-- Facts about the single-counter reconciliation's proposed watermark
(under positive amounts): it never decreases, dominates the sequence of
every entry touching the account, and is either the old watermark or the
sequence of some ledger entry. -/
theorem getBalance1_tn_facts (l : List Entry) (cp : Account1) (u : Int)
    (hpos : ∀ e ∈ l, 0 < e.amount) :
    cp.tn ≤ (getBalance1Core l cp u).tn ∧
    (∀ e ∈ l, e.userTo = some u → e.seq ≤ (getBalance1Core l cp u).tn) ∧
    (∀ e ∈ l, e.userFrom = some u → e.seq ≤ (getBalance1Core l cp u).tn) ∧
    ((getBalance1Core l cp u).tn = cp.tn ∨ ∃ e ∈ l, (getBalance1Core l cp u).tn = e.seq) := by
  rw [getBalance1Core_spec l cp u hpos]
  dsimp only
  have hcr : ∀ e ∈ credAbove u cp.tn l, cp.tn < e.seq :=
    fun e he => (mem_credAbove.1 he).2.2
  have hdr : ∀ e ∈ debAbove u cp.tn l, cp.tn < e.seq :=
    fun e he => (mem_debAbove.1 he).2.2
  cases hmc : sqlMaxSeq (credAbove u cp.tn l) with
  | none =>
    cases hmd : sqlMaxSeq (debAbove u cp.tn l) with
    | none =>
      simp only [sqlMax, sqlJoin, Option.getD_none]
      refine ⟨le_refl _, ?_, ?_, Or.inl (by trivial)⟩
      · intro e he hc
        by_cases h : cp.tn < e.seq
        · have hin := mem_credAbove.2 ⟨he, hc, h⟩
          rw [sqlMaxSeq_eq_none.1 hmc] at hin
          cases hin
        · omega
      · intro e he hc
        by_cases h : cp.tn < e.seq
        · have hin := mem_debAbove.2 ⟨he, hc, h⟩
          rw [sqlMaxSeq_eq_none.1 hmd] at hin
          cases hin
        · omega
    | some b =>
      have hbgt : cp.tn < b := sqlMaxSeq_gt hdr hmd
      simp only [sqlMax, sqlJoin, Option.getD_some]
      refine ⟨by omega, ?_, ?_, ?_⟩
      · intro e he hc
        by_cases h : cp.tn < e.seq
        · have hin := mem_credAbove.2 ⟨he, hc, h⟩
          rw [sqlMaxSeq_eq_none.1 hmc] at hin
          cases hin
        · omega
      · intro e he hc
        by_cases h : cp.tn < e.seq
        · have hin := mem_debAbove.2 ⟨he, hc, h⟩
          exact sqlMaxSeq_mem_le hin hmd
        · omega
      · obtain ⟨e, he, hme⟩ := sqlMaxSeq_exists_mem hmd
        exact Or.inr ⟨e, (mem_debAbove.1 he).1, hme.symm⟩
  | some a =>
    have hagt : cp.tn < a := sqlMaxSeq_gt hcr hmc
    cases hmd : sqlMaxSeq (debAbove u cp.tn l) with
    | none =>
      simp only [sqlMax, sqlJoin, Option.getD_some]
      refine ⟨by omega, ?_, ?_, ?_⟩
      · intro e he hc
        by_cases h : cp.tn < e.seq
        · have hin := mem_credAbove.2 ⟨he, hc, h⟩
          exact sqlMaxSeq_mem_le hin hmc
        · omega
      · intro e he hc
        by_cases h : cp.tn < e.seq
        · have hin := mem_debAbove.2 ⟨he, hc, h⟩
          rw [sqlMaxSeq_eq_none.1 hmd] at hin
          cases hin
        · omega
      · obtain ⟨e, he, hme⟩ := sqlMaxSeq_exists_mem hmc
        exact Or.inr ⟨e, (mem_credAbove.1 he).1, hme.symm⟩
    | some b =>
      have hbgt : cp.tn < b := sqlMaxSeq_gt hdr hmd
      simp only [sqlMax, sqlJoin, Option.getD_some]
      refine ⟨by omega, ?_, ?_, ?_⟩
      · intro e he hc
        by_cases h : cp.tn < e.seq
        · have hin := mem_credAbove.2 ⟨he, hc, h⟩
          have := sqlMaxSeq_mem_le hin hmc
          omega
        · omega
      · intro e he hc
        by_cases h : cp.tn < e.seq
        · have hin := mem_debAbove.2 ⟨he, hc, h⟩
          have := sqlMaxSeq_mem_le hin hmd
          omega
        · omega
      · rcases max_choice a b with h | h
        · obtain ⟨e, he, hme⟩ := sqlMaxSeq_exists_mem hmc
          exact Or.inr ⟨e, (mem_credAbove.1 he).1, by omega⟩
        · obtain ⟨e, he, hme⟩ := sqlMaxSeq_exists_mem hmd
          exact Or.inr ⟨e, (mem_debAbove.1 he).1, by omega⟩

/-- If every entry touching `u` is at or below the stored watermark, the
single-counter reconciliation returns the stored values unchanged (the
both-empty UNION deduplicates to one all-NULL row, and the COALESCEs fall
back to the cached values). -/
theorem getBalance1Core_stable (l : List Entry) (g : GB1) (u : Int)
    (hcred : ∀ e ∈ l, e.userTo = some u → e.seq ≤ g.tn)
    (hdeb : ∀ e ∈ l, e.userFrom = some u → e.seq ≤ g.tn) :
    getBalance1Core l ⟨g.tn, g.bal⟩ u = g := by
  unfold getBalance1Core
  dsimp only
  rw [credAbove_eq_nil hcred, debAbove_eq_nil hdeb]
  simp [sqlSumAmt, sqlMaxSeq, sqlSum, sqlMax, sqlAdd, sqlJoin]

/-- Reconciling immediately after persisting a reconciliation of the same
ledger returns the same result (single-counter variant, positive
amounts). -/
theorem getBalance1_after_reconcile (s : State1) (u : Int)
    (hpos : ∀ e ∈ s.ledger, 0 < e.amount) :
    getBalance1 s.ledger (updateBalance1 u (getBalance1 s.ledger s.accounts u).bal
      (getBalance1 s.ledger s.accounts u).tn s.accounts) u =
    getBalance1 s.ledger s.accounts u := by
  have hcp : lookupAcc u (updateBalance1 u (getBalance1 s.ledger s.accounts u).bal
      (getBalance1 s.ledger s.accounts u).tn s.accounts) =
      some ⟨(getBalance1 s.ledger s.accounts u).tn, (getBalance1 s.ledger s.accounts u).bal⟩ := by
    rw [updateBalance1, lookupAcc_upsert_self]
  have hfacts := getBalance1_tn_facts s.ledger ((lookupAcc u s.accounts).getD ⟨0, 0⟩) u hpos
  unfold getBalance1 at hcp ⊢
  rw [hcp]
  simp only [Option.getD_some]
  exact getBalance1Core_stable s.ledger _ u hfacts.2.1 hfacts.2.2.1

/-- Global invariant of single-counter states: sequence numbers are the
positions 1..n, amounts are positive, and every checkpoint row caches the
net balance of the entries up to its watermark. -/
def Inv1 (s : State1) : Prop :=
  (∀ e ∈ s.ledger, 0 < e.seq ∧ e.seq ≤ (s.ledger.length : Int)) ∧
  (∀ e ∈ s.ledger, 0 < e.amount) ∧
  ∀ u cp, lookupAcc u s.accounts = some cp →
    cp.tn ≤ (s.ledger.length : Int) ∧
    cp.sum = credUpTo u cp.tn s.ledger - debUpTo u cp.tn s.ledger

theorem inv1_cp_facts {s : State1} (hs : Inv1 s) (u : Int) :
    ((lookupAcc u s.accounts).getD ⟨0, 0⟩).tn ≤ (s.ledger.length : Int) ∧
    ((lookupAcc u s.accounts).getD ⟨0, 0⟩).sum =
      credUpTo u ((lookupAcc u s.accounts).getD ⟨0, 0⟩).tn s.ledger
      - debUpTo u ((lookupAcc u s.accounts).getD ⟨0, 0⟩).tn s.ledger := by
  obtain ⟨hseq, hpos, hacc⟩ := hs
  cases hl : lookupAcc u s.accounts with
  | none =>
    simp only [Option.getD_none]
    constructor
    · positivity
    · rw [credUpTo_eq_zero (fun e he => (hseq e he).1),
        debUpTo_eq_zero (fun e he => (hseq e he).1)]
      simp
  | some c =>
    simpa using hacc u c hl

/-- The balance returned by the single-counter reconciliation on an
invariant state is the true ledger balance. -/
theorem bal1_eq_balOf {s : State1} (hs : Inv1 s) (u : Int) :
    (getBalance1 s.ledger s.accounts u).bal = balOf s.ledger u := by
  have hcp := inv1_cp_facts hs u
  obtain ⟨hseq, hpos, hacc⟩ := hs
  unfold getBalance1
  rw [getBalance1Core_spec _ _ _ hpos]
  dsimp only
  have h1 := totalCred_split u ((lookupAcc u s.accounts).getD ⟨0, 0⟩).tn s.ledger
  have h2 := totalDeb_split u ((lookupAcc u s.accounts).getD ⟨0, 0⟩).tn s.ledger
  simp only [balOf]
  omega

/-- The proposed watermark stays within the ledger on invariant states. -/
theorem tn1_le_len {s : State1} (hs : Inv1 s) (u : Int) :
    (getBalance1 s.ledger s.accounts u).tn ≤ (s.ledger.length : Int) := by
  have hcp := inv1_cp_facts hs u
  obtain ⟨hseq, hpos, _⟩ := hs
  have hfacts := getBalance1_tn_facts s.ledger ((lookupAcc u s.accounts).getD ⟨0, 0⟩) u hpos
  rcases hfacts.2.2.2 with h | ⟨e, he, hme⟩
  · unfold getBalance1
    rw [h]
    exact hcp.1
  · unfold getBalance1
    rw [hme]
    exact (hseq e he).2

theorem inv1_init : Inv1 init1 := by
  refine ⟨?_, ?_, ?_⟩
  · intro e he
    cases he
  · intro e he
    cases he
  · intro u cp h
    simp [init1, lookupAcc] at h

theorem inv1_reconcile (s : State1) (u : Int) (hs : Inv1 s) :
    Inv1 ⟨s.ledger, updateBalance1 u (getBalance1 s.ledger s.accounts u).bal
      (getBalance1 s.ledger s.accounts u).tn s.accounts⟩ := by
  have hlen := tn1_le_len hs u
  have hbal := bal1_eq_balOf hs u
  obtain ⟨hseq, hpos, hacc⟩ := hs
  have hfacts := getBalance1_tn_facts s.ledger ((lookupAcc u s.accounts).getD ⟨0, 0⟩) u hpos
  refine ⟨hseq, hpos, ?_⟩
  intro v cp' hv
  by_cases hvu : v = u
  · subst hvu
    rw [updateBalance1, lookupAcc_upsert_self] at hv
    have hcp' : cp' = ⟨(getBalance1 s.ledger s.accounts v).tn,
        (getBalance1 s.ledger s.accounts v).bal⟩ := (Option.some_inj.1 hv).symm
    subst hcp'
    refine ⟨hlen, ?_⟩
    dsimp only
    unfold getBalance1 at hbal ⊢
    rw [credUpTo_eq_totalCred hfacts.2.1, debUpTo_eq_totalDeb hfacts.2.2.1, hbal]
    simp [balOf]
  · rw [updateBalance1, lookupAcc_upsert_ne hvu] at hv
    exact hacc v cp' hv

theorem inv1_append (s : State1) (uf ut : Option Int) (amt : Int) (hamt : 0 < amt)
    (hs : Inv1 s) :
    Inv1 ⟨s.ledger ++ [⟨(s.ledger.length : Int) + 1, uf, ut, amt⟩], s.accounts⟩ := by
  obtain ⟨hseq, hpos, hacc⟩ := hs
  have hlen : (((s.ledger ++ [(⟨(s.ledger.length : Int) + 1, uf, ut, amt⟩ : Entry)]).length : Int))
      = (s.ledger.length : Int) + 1 := by
    simp
  refine ⟨?_, ?_, ?_⟩
  · intro e he
    rcases List.mem_append.1 he with h | h
    · have := hseq e h
      rw [hlen]
      omega
    · have : e = ⟨(s.ledger.length : Int) + 1, uf, ut, amt⟩ := by simpa using h
      subst this
      rw [hlen]
      dsimp only
      omega
  · intro e he
    rcases List.mem_append.1 he with h | h
    · exact hpos e h
    · have : e = ⟨(s.ledger.length : Int) + 1, uf, ut, amt⟩ := by simpa using h
      subst this
      exact hamt
  · intro v cp hv
    obtain ⟨hb, hsum⟩ := hacc v cp hv
    constructor
    · rw [hlen]
      omega
    · rw [credUpTo_append, debUpTo_append]
      have hc1 : credUpTo v cp.tn [⟨(s.ledger.length : Int) + 1, uf, ut, amt⟩] = 0 := by
        simp only [credUpTo]
        rw [if_neg (by dsimp only; omega :
          ¬((⟨(s.ledger.length : Int) + 1, uf, ut, amt⟩ : Entry).userTo = some v ∧
            (⟨(s.ledger.length : Int) + 1, uf, ut, amt⟩ : Entry).seq ≤ cp.tn))]
        omega
      have hd1 : debUpTo v cp.tn [⟨(s.ledger.length : Int) + 1, uf, ut, amt⟩] = 0 := by
        simp only [debUpTo]
        rw [if_neg (by dsimp only; omega :
          ¬((⟨(s.ledger.length : Int) + 1, uf, ut, amt⟩ : Entry).userFrom = some v ∧
            (⟨(s.ledger.length : Int) + 1, uf, ut, amt⟩ : Entry).seq ≤ cp.tn))]
        omega
      omega

theorem inv1_step (o : Op) (s : State1) (ho : opPos o) (hs : Inv1 s) : Inv1 (step1 o s) := by
  obtain ⟨l, a⟩ := s
  cases o with
  | deposit u amt =>
    exact inv1_append ⟨l, a⟩ none (some u) amt ho hs
  | getbal u =>
    exact inv1_reconcile ⟨l, a⟩ u hs
  | withdraw u amt =>
    have h1 := inv1_reconcile ⟨l, a⟩ u hs
    by_cases h : (getBalance1 l a u).bal < amt
    · simpa [step1, withdraw1, h] using h1
    · have h2 := inv1_append _ (some u) none amt ho h1
      simpa [step1, withdraw1, h] using h2
  | transfer uf ut amt =>
    have h1 := inv1_reconcile ⟨l, a⟩ uf hs
    by_cases h : (getBalance1 l a uf).bal < amt
    · simpa [step1, transfer1, h] using h1
    · have h2 := inv1_append _ (some uf) (some ut) amt ho h1
      simpa [step1, transfer1, h] using h2

theorem inv1_reachable {s : State1} (h : Reachable1 s) : Inv1 s := by
  induction h with
  | init => exact inv1_init
  | step o ho _ ih => exact inv1_step o _ ho ih

theorem run1_reachable (ops : List Op) {s : State1} (hs : Reachable1 s)
    (h : ∀ o ∈ ops, opPos o) : Reachable1 (run1 s ops) := by
  induction ops generalizing s with
  | nil => exact hs
  | cons o t ih =>
    exact ih (Reachable1.step o (h o (by simp)) hs) (fun o' ho' => h o' (by simp [ho']))

/-! ## Conservation -/

/-- The account named by a nullable column, when present, belongs to the
given set of accounts. -/
def memOpt (us : Finset Int) : Option Int → Prop
  | none => True
  | some v => v ∈ us

instance memOpt.decidable (us : Finset Int) : (o : Option Int) → Decidable (memOpt us o)
  | none => .isTrue trivial
  | some v => inferInstanceAs (Decidable (v ∈ us))

/-- `us` covers every account touched by the ledger. -/
def covers (us : Finset Int) (l : List Entry) : Prop :=
  ∀ e ∈ l, memOpt us e.userTo ∧ memOpt us e.userFrom

instance covers.decidable (us : Finset Int) (l : List Entry) : Decidable (covers us l) :=
  inferInstanceAs (Decidable (∀ e ∈ l, memOpt us e.userTo ∧ memOpt us e.userFrom))

/-- Summed over any set covering all touched accounts, ledger balances
equal total deposits minus total withdrawals: a deposit row adds its
amount once, a withdrawal row subtracts it once, and a transfer row (even
a self-transfer) contributes zero. -/
theorem sum_balOf_eq (l : List Entry) (us : Finset Int) (hcov : covers us l) :
    (us.sum fun v => balOf l v) = depositTotal l - withdrawalTotal l := by
  induction l with
  | nil => simp [balOf, totalCred, totalDeb, depositTotal, withdrawalTotal]
  | cons e t ih =>
    have hcovh := hcov e (by simp)
    have hcovt : covers us t := fun e' he' => hcov e' (by simp [he'])
    have hsplit : ∀ v, balOf (e :: t) v =
        ((if e.userTo = some v then e.amount else 0)
          - (if e.userFrom = some v then e.amount else 0)) + balOf t v := by
      intro v
      simp only [balOf, totalCred, totalDeb]
      omega
    rw [Finset.sum_congr rfl (fun v _ => hsplit v), Finset.sum_add_distrib,
      Finset.sum_sub_distrib, ih hcovt]
    have hto : (us.sum fun v => if e.userTo = some v then e.amount else 0)
        = (if e.userTo = none then 0 else e.amount) := by
      cases hx : e.userTo with
      | none => simp
      | some w =>
        have hw : w ∈ us := by
          have := hcovh.1
          rw [hx] at this
          exact this
        simp only [Option.some.injEq]
        rw [Finset.sum_ite_eq us w (fun _ => e.amount)]
        simp [hw]
    have hfrom : (us.sum fun v => if e.userFrom = some v then e.amount else 0)
        = (if e.userFrom = none then 0 else e.amount) := by
      cases hx : e.userFrom with
      | none => simp
      | some w =>
        have hw : w ∈ us := by
          have := hcovh.2
          rw [hx] at this
          exact this
        simp only [Option.some.injEq]
        rw [Finset.sum_ite_eq us w (fun _ => e.amount)]
        simp [hw]
    rw [hto, hfrom]
    simp only [depositTotal, withdrawalTotal]
    cases e.userTo <;> cases e.userFrom <;> simp <;> omega

/-- C3: after running any trace of contract-conforming operations from
the empty database, the balances GetBalance reports, summed over any set
of accounts covering all ledger activity, equal the total deposited
amount minus the total withdrawn amount recorded in the ledger
(transfers cancel out). -/
theorem C3_conservation (ops : List Op) (us : Finset Int)
    (hpos : ∀ o ∈ ops, opPos o)
    (hcov : covers us (run1 init1 ops).ledger) :
    (us.sum fun v => (balanceOp1 (run1 init1 ops) v).1)
      = depositTotal (run1 init1 ops).ledger - withdrawalTotal (run1 init1 ops).ledger := by
  have hinv : Inv1 (run1 init1 ops) :=
    inv1_reachable (run1_reachable ops Reachable1.init hpos)
  have hb : ∀ v, (balanceOp1 (run1 init1 ops) v).1 = balOf (run1 init1 ops).ledger v := by
    intro v
    exact bal1_eq_balOf hinv v
  rw [Finset.sum_congr rfl (fun v _ => hb v)]
  exact sum_balOf_eq _ us hcov

theorem C3_conservation_witness :
    ((({1, 2} : Finset Int).sum fun v =>
        (balanceOp1 (run1 init1 [Op.deposit 1 40, Op.transfer 1 2 30, Op.withdraw 2 5]) v).1)
      = depositTotal (run1 init1 [Op.deposit 1 40, Op.transfer 1 2 30, Op.withdraw 2 5]).ledger
        - withdrawalTotal (run1 init1
            [Op.deposit 1 40, Op.transfer 1 2 30, Op.withdraw 2 5]).ledger) :=
  C3_conservation [Op.deposit 1 40, Op.transfer 1 2 30, Op.withdraw 2 5] {1, 2}
    (by decide) (by decide)

/-- Reconciling after appending one debit entry above the watermark (all
older entries being at or below it) yields the cached balance minus that
debit. -/
theorem getBalance1Core_single_debit (l : List Entry) (g : GB1) (u : Int) (e : Entry)
    (hcred : ∀ x ∈ l, x.userTo = some u → x.seq ≤ g.tn)
    (hdeb : ∀ x ∈ l, x.userFrom = some u → x.seq ≤ g.tn)
    (heto : e.userTo = none) (hefrom : e.userFrom = some u) (hetn : g.tn < e.seq) :
    (getBalance1Core (l ++ [e]) ⟨g.tn, g.bal⟩ u).bal = g.bal - e.amount := by
  unfold getBalance1Core
  dsimp only
  rw [credAbove_append, debAbove_append, credAbove_eq_nil hcred, debAbove_eq_nil hdeb]
  have h1 : credAbove u g.tn [e] = [] := by
    simp [credAbove, heto]
  have h2 : debAbove u g.tn [e] = [e] := by
    simp [debAbove, hefrom, hetn]
  rw [h1, h2]
  simp [sqlSumAmt, sqlMaxSeq, sqlSum, sqlMax, sqlAdd, sqlJoin]
  omega

/-- Withdrawing exactly the reconciled balance leaves a zero balance. -/
theorem withdraw1_exact_zero (s : State1) (u : Int) (hinv : Inv1 s) :
    (getBalance1 (s.ledger ++ [⟨(s.ledger.length : Int) + 1, some u, none,
        (getBalance1 s.ledger s.accounts u).bal⟩])
      (updateBalance1 u (getBalance1 s.ledger s.accounts u).bal
        (getBalance1 s.ledger s.accounts u).tn s.accounts) u).bal = 0 := by
  have hlen := tn1_le_len hinv u
  have hfacts := getBalance1_tn_facts s.ledger ((lookupAcc u s.accounts).getD ⟨0, 0⟩) u hinv.2.1
  have hcp : lookupAcc u (updateBalance1 u (getBalance1 s.ledger s.accounts u).bal
      (getBalance1 s.ledger s.accounts u).tn s.accounts) =
      some ⟨(getBalance1 s.ledger s.accounts u).tn, (getBalance1 s.ledger s.accounts u).bal⟩ := by
    rw [updateBalance1, lookupAcc_upsert_self]
  unfold getBalance1 at hcp hlen ⊢
  rw [hcp]
  simp only [Option.getD_some]
  rw [getBalance1Core_single_debit s.ledger
    (getBalance1Core s.ledger ((lookupAcc u s.accounts).getD ⟨0, 0⟩) u) u
    ⟨(s.ledger.length : Int) + 1, some u, none,
      (getBalance1Core s.ledger ((lookupAcc u s.accounts).getD ⟨0, 0⟩) u).bal⟩
    hfacts.2.1 hfacts.2.2.1 rfl rfl (by dsimp only; omega)]
  dsimp only
  omega

/-- C4: a Withdraw of a positive amount succeeds and appends exactly one
debit-only entry iff the reconciled balance is at least the amount, and
withdrawing exactly the reconciled balance succeeds and leaves the
balance at zero. -/
theorem C4_withdraw_iff (s : State1) (u m : Int) (hs : Reachable1 s) (hm : 0 < m) :
    (((withdraw1 s u m).1 = true ∧
        (withdraw1 s u m).2.ledger = s.ledger ++
          [⟨(s.ledger.length : Int) + 1, some u, none, m⟩]) ↔
      m ≤ (getBalance1 s.ledger s.accounts u).bal) ∧
    (m = (getBalance1 s.ledger s.accounts u).bal →
      (getBalance1 (withdraw1 s u m).2.ledger (withdraw1 s u m).2.accounts u).bal = 0) := by
  have hinv := inv1_reachable hs
  by_cases h : (getBalance1 s.ledger s.accounts u).bal < m
  · constructor
    · constructor
      · rintro ⟨h1, _⟩
        simp only [withdraw1, if_pos h] at h1
        exact absurd h1 (by simp)
      · intro hle
        exact absurd hle (by omega)
    · intro hmeq
      exact absurd hmeq (by omega)
  · have hw : withdraw1 s u m =
        (true, ⟨s.ledger ++ [⟨(s.ledger.length : Int) + 1, some u, none, m⟩],
          updateBalance1 u (getBalance1 s.ledger s.accounts u).bal
            (getBalance1 s.ledger s.accounts u).tn s.accounts⟩) := by
      simp only [withdraw1, if_neg h]
    constructor
    · constructor
      · intro _
        omega
      · intro _
        rw [hw]
        exact ⟨rfl, rfl⟩
    · intro hmeq
      subst hmeq
      rw [hw]
      exact withdraw1_exact_zero s u hinv

theorem C4_withdraw_iff_witness :
    ((((withdraw1 (step1 (Op.deposit 3 5) init1) 3 5).1 = true ∧
        (withdraw1 (step1 (Op.deposit 3 5) init1) 3 5).2.ledger =
          (step1 (Op.deposit 3 5) init1).ledger ++
          [⟨((step1 (Op.deposit 3 5) init1).ledger.length : Int) + 1, some 3, none, 5⟩]) ↔
      (5 : Int) ≤ (getBalance1 (step1 (Op.deposit 3 5) init1).ledger
        (step1 (Op.deposit 3 5) init1).accounts 3).bal) ∧
    ((5 : Int) = (getBalance1 (step1 (Op.deposit 3 5) init1).ledger
        (step1 (Op.deposit 3 5) init1).accounts 3).bal →
      (getBalance1 (withdraw1 (step1 (Op.deposit 3 5) init1) 3 5).2.ledger
        (withdraw1 (step1 (Op.deposit 3 5) init1) 3 5).2.accounts 3).bal = 0)) :=
  C4_withdraw_iff (step1 (Op.deposit 3 5) init1) 3 5
    (Reachable1.step (Op.deposit 3 5) (by decide) Reachable1.init) (by decide)

/-- C5: a Withdraw or Transfer rejected for insufficient funds appends no
ledger entry and leaves the balance unchanged, while the persisted
checkpoint row is still the refreshed one, whose cached balance was
computed from the pre-existing entries only. -/
theorem C5_insufficient_no_mutation (s : State1) (u a b m : Int)
    (hpos : ∀ e ∈ s.ledger, 0 < e.amount)
    (hw : (getBalance1 s.ledger s.accounts u).bal < m)
    (ht : (getBalance1 s.ledger s.accounts a).bal < m) :
    ((withdraw1 s u m).1 = false ∧
      (withdraw1 s u m).2.ledger = s.ledger ∧
      (withdraw1 s u m).2.accounts = updateBalance1 u (getBalance1 s.ledger s.accounts u).bal
        (getBalance1 s.ledger s.accounts u).tn s.accounts ∧
      (getBalance1 (withdraw1 s u m).2.ledger (withdraw1 s u m).2.accounts u).bal
        = (getBalance1 s.ledger s.accounts u).bal) ∧
    ((transfer1 s a b m).1 = false ∧
      (transfer1 s a b m).2.ledger = s.ledger ∧
      (transfer1 s a b m).2.accounts = updateBalance1 a (getBalance1 s.ledger s.accounts a).bal
        (getBalance1 s.ledger s.accounts a).tn s.accounts ∧
      (getBalance1 (transfer1 s a b m).2.ledger (transfer1 s a b m).2.accounts a).bal
        = (getBalance1 s.ledger s.accounts a).bal) := by
  have h1 : withdraw1 s u m = (false, ⟨s.ledger,
      updateBalance1 u (getBalance1 s.ledger s.accounts u).bal
        (getBalance1 s.ledger s.accounts u).tn s.accounts⟩) := by
    simp only [withdraw1, if_pos hw]
  have h2 : transfer1 s a b m = (false, ⟨s.ledger,
      updateBalance1 a (getBalance1 s.ledger s.accounts a).bal
        (getBalance1 s.ledger s.accounts a).tn s.accounts⟩) := by
    simp only [transfer1, if_pos ht]
  refine ⟨⟨?_, ?_, ?_, ?_⟩, ⟨?_, ?_, ?_, ?_⟩⟩
  · rw [h1]
  · rw [h1]
  · rw [h1]
  · rw [h1]
    exact congrArg GB1.bal (getBalance1_after_reconcile s u hpos)
  · rw [h2]
  · rw [h2]
  · rw [h2]
  · rw [h2]
    exact congrArg GB1.bal (getBalance1_after_reconcile s a hpos)

theorem C5_insufficient_no_mutation_witness :
    (((withdraw1 init1 1 5).1 = false ∧
      (withdraw1 init1 1 5).2.ledger = init1.ledger ∧
      (withdraw1 init1 1 5).2.accounts = updateBalance1 1
        (getBalance1 init1.ledger init1.accounts 1).bal
        (getBalance1 init1.ledger init1.accounts 1).tn init1.accounts ∧
      (getBalance1 (withdraw1 init1 1 5).2.ledger (withdraw1 init1 1 5).2.accounts 1).bal
        = (getBalance1 init1.ledger init1.accounts 1).bal) ∧
    ((transfer1 init1 1 2 5).1 = false ∧
      (transfer1 init1 1 2 5).2.ledger = init1.ledger ∧
      (transfer1 init1 1 2 5).2.accounts = updateBalance1 1
        (getBalance1 init1.ledger init1.accounts 1).bal
        (getBalance1 init1.ledger init1.accounts 1).tn init1.accounts ∧
      (getBalance1 (transfer1 init1 1 2 5).2.ledger
        (transfer1 init1 1 2 5).2.accounts 1).bal
        = (getBalance1 init1.ledger init1.accounts 1).bal)) :=
  C5_insufficient_no_mutation init1 1 1 2 5 (by decide) (by decide) (by decide)

/-- C6: whenever any step of an operation's unit of work fails (balance
read, checkpoint write, ledger insert, or commit), the persisted state is
exactly the starting state: no partial checkpoint advance and no partial
ledger append survives, on every exit path of every operation.  A commit
failure rolls back even on the insufficient-funds path, where the code
ignores the commit error. -/
theorem C6_failure_rolls_back (f : Failures) (s : State1) (u a b m : Int) :
    ((add1F f s u m).1 = WRes.storageErr → (add1F f s u m).2 = s) ∧
    (f.failCommit = true → (add1F f s u m).2 = s) ∧
    ((withdraw1F f s u m).1 = WRes.storageErr → (withdraw1F f s u m).2 = s) ∧
    (f.failCommit = true → (withdraw1F f s u m).2 = s) ∧
    ((transfer1F f s a b m).1 = WRes.storageErr → (transfer1F f s a b m).2 = s) ∧
    (f.failCommit = true → (transfer1F f s a b m).2 = s) ∧
    ((balanceOp1F f s u).1 = WRes.storageErr → (balanceOp1F f s u).2 = s) ∧
    (f.failCommit = true → (balanceOp1F f s u).2 = s) := by
  refine ⟨?_, ?_, ?_, ?_, ?_, ?_, ?_, ?_⟩
  · unfold add1F
    split_ifs <;> simp_all
  · unfold add1F
    split_ifs <;> simp_all
  · unfold withdraw1F
    by_cases hbal : (getBalance1 s.ledger s.accounts u).bal < m
    · rw [if_pos hbal]
      split_ifs <;> simp_all
    · rw [if_neg hbal]
      split_ifs <;> simp_all
  · unfold withdraw1F
    by_cases hbal : (getBalance1 s.ledger s.accounts u).bal < m
    · rw [if_pos hbal]
      split_ifs <;> simp_all
    · rw [if_neg hbal]
      split_ifs <;> simp_all
  · unfold transfer1F
    by_cases hbal : (getBalance1 s.ledger s.accounts a).bal < m
    · rw [if_pos hbal]
      split_ifs <;> simp_all
    · rw [if_neg hbal]
      split_ifs <;> simp_all
  · unfold transfer1F
    by_cases hbal : (getBalance1 s.ledger s.accounts a).bal < m
    · rw [if_pos hbal]
      split_ifs <;> simp_all
    · rw [if_neg hbal]
      split_ifs <;> simp_all
  · unfold balanceOp1F
    split_ifs <;> simp_all
  · unfold balanceOp1F
    split_ifs <;> simp_all

theorem C6_failure_rolls_back_witness :
    (withdraw1F ⟨false, true, false, false, false⟩ (add1 init1 7 40) 7 15).2 = add1 init1 7 40 ∧
    (withdraw1F ⟨false, false, false, false, true⟩ (add1 init1 7 40) 7 15).2 = add1 init1 7 40 :=
  ⟨(C6_failure_rolls_back ⟨false, true, false, false, false⟩ (add1 init1 7 40) 7 7 2 15).2.2.1
      (by decide),
   (C6_failure_rolls_back ⟨false, false, false, false, true⟩ (add1 init1 7 40) 7 7 2 15).2.2.2.1
      (by decide)⟩

/-- C7 (evaluation of the code at the failing inputs): the operations
perform no amount validation and no same-account check.  A Deposit of a
negative amount reports success and appends the entry, and a
self-transfer (with sufficient balance) reports success and appends an
entry, contrary to the specified `InvalidAmount`/`SameAccount`
rejections. -/
theorem C7_no_validation_code_bug :
    (add1F ⟨false, false, false, false, false⟩ init1 1 (-5)).1 = WRes.ok ∧
    (add1F ⟨false, false, false, false, false⟩ init1 1 (-5)).2.ledger =
      [⟨1, none, some 1, -5⟩] ∧
    (transfer1 (add1 init1 1 40) 1 1 10).1 = true ∧
    (transfer1 (add1 init1 1 40) 1 1 10).2.ledger =
      (add1 init1 1 40).ledger ++ [⟨2, some 1, some 1, 10⟩] := by
  decide

/-- C10: from the zero baseline (no checkpoint row), the legacy
single-counter getBalance and the dual-counter getBalance compute the
same balance on any ledger whose amounts are strictly positive. -/
theorem C10_variants_agree_from_zero (l : List Entry) (u : Int)
    (hpos : ∀ e ∈ l, 0 < e.amount) :
    (getBalance1 l [] u).bal = (getBalance2 l [] u).bal := by
  unfold getBalance1 getBalance2
  rw [getBalance1Core_spec _ _ _ hpos, getBalance2Core_spec]
  simp [lookupAcc]

theorem C10_variants_agree_from_zero_witness :
    (getBalance1 [⟨1, none, some 1, 40⟩, ⟨2, some 1, none, 5⟩] [] 1).bal =
    (getBalance2 [⟨1, none, some 1, 40⟩, ⟨2, some 1, none, 5⟩] [] 1).bal :=
  C10_variants_agree_from_zero [⟨1, none, some 1, 40⟩, ⟨2, some 1, none, 5⟩] 1 (by decide)
